import Mathlib

/-!
# Verification of sider `server/server.go`

A shallow embedding of the sider server core: the streaming wire-protocol
parser (`readBufferedCommand`, `readBufferedTelnetCommand`,
`parseArgsFromTelnetLine`, `CommandReader.ReadCommand`), the command registry
(`register`), the connection loop (`handleConn`) and the startup replay loop
(the AOF part of `Start`).

Bytes are modelled as `Nat` (values 0..255 in all realizable runs), byte
strings as `List Nat`, and Go's `int`/`uint64` arithmetic as `Int`/`Nat`
with explicit reduction modulo `2^64` where the source converts between
them.  A Go runtime panic (out-of-range slice index) is an explicit
`panicked` outcome.  All definitions are executable.
-/

/-- ASCII bytes of a Lean string literal (all literals used are ASCII). -/
def strBytes (s : String) : List Nat := s.toList.map Char.toNat

/-- `d.getD i 0`: Go `data[i]` at an index that is in range on the paths
where the source performs the access. -/
def byteAt (d : List Nat) (i : Nat) : Nat := d.getD i 0

/-- Go `data[lo:hi]` for `lo ≤ hi ≤ len(data)` (the only way the source
uses it apart from the panicking access, which is modelled separately). -/
def sliceGo (d : List Nat) (lo hi : Nat) : List Nat := (d.take hi).drop lo

/-- Reinterpret a `uint64` value as Go's `int64` (two's complement). -/
def toInt64 (u : Nat) : Int :=
  if u % 2 ^ 64 < 2 ^ 63 then ((u % 2 ^ 64 : Nat) : Int)
  else ((u % 2 ^ 64 : Nat) : Int) - 2 ^ 64

/-- First index `≥ i` holding a LF byte; `i` is the index of the head of the
list argument.  Models the scan loops `for i := 1; i < len(data); i++`
and `for ; i < len(data); i++` of the source. -/
def findLFAux : List Nat → Nat → Option Nat
  | [], _ => none
  | b :: rest, i => if b = 10 then some i else findLFAux rest (i + 1)

/-- First index `≥ start` of a LF byte in `d` (none when absent). -/
def findLFFrom (d : List Nat) (start : Nat) : Option Nat :=
  findLFAux (d.drop start) start

/-- Accumulating decimal-digit scan used by both `strconv.ParseUint` and
(under a sign) `strconv.ParseInt` with base 10: fails on a non-digit byte. -/
def digitsValAux : Nat → List Nat → Option Nat
  | acc, [] => some acc
  | acc, c :: rest =>
    if 48 ≤ c ∧ c ≤ 57 then digitsValAux (acc * 10 + (c - 48)) rest else none

/-- Go `strconv.ParseUint(s, 10, 64)`: non-empty, unsigned digits, value
below `2^64`; `none` covers both syntax and range errors (the source treats
any error identically). -/
def parseGoUint (s : List Nat) : Option Nat :=
  if s.isEmpty then none
  else
    match digitsValAux 0 s with
    | some v => if v < 2 ^ 64 then some v else none
    | none => none

/-- Go `strconv.ParseInt(s, 10, 64)`: optional single sign, then digits;
range `[-2^63, 2^63-1]`. -/
def parseGoInt : List Nat → Option Int
  | [] => none
  | c :: rest =>
    if c = 45 then
      match (if rest.isEmpty then none else digitsValAux 0 rest) with
      | some v => if v ≤ 2 ^ 63 then some (-(v : Int)) else none
      | none => none
    else if c = 43 then
      match (if rest.isEmpty then none else digitsValAux 0 rest) with
      | some v => if v ≤ 2 ^ 63 - 1 then some (v : Int) else none
      | none => none
    else
      match digitsValAux 0 (c :: rest) with
      | some v => if v ≤ 2 ^ 63 - 1 then some (v : Int) else none
      | none => none

/-- The protocol errors produced by the parser (`protocolError.msg` values
of the source, kept symbolic; `perrBytes` recovers the message bytes). -/
inductive PErr where
  | invalidMultibulkLen
  | invalidBulkLen
  | expectedDollar (got : Nat)
  | unbalancedQuotes
deriving DecidableEq, Repr

/-- The message string of each `protocolError` (Go `err.msg`). -/
def perrBytes : PErr → List Nat
  | .invalidMultibulkLen => strBytes "invalid multibulk length"
  | .invalidBulkLen => strBytes "invalid bulk length"
  | .expectedDollar got => strBytes "expected " ++ [39, 36, 39] ++ strBytes ", got " ++ [39, got, 39]
  | .unbalancedQuotes => strBytes "unbalanced quotes in request"

/-- Outcome of one `readBufferedCommand` attempt on a byte buffer:
a complete command (raw consumed bytes, decoded argument list, the
inline/telnet indication that is the third Go return value), a need-more-data
outcome (`nil, nil, false, nil` in the source), a protocol error, or a Go
runtime panic (out-of-range slice index). -/
inductive ParseResult where
  | ok (raw : List Nat) (args : List (List Nat)) (telnet : Bool)
  | more
  | perr (e : PErr)
  | panicked
deriving DecidableEq, Repr

/-- One iteration of the source's inline tokenizer loop state:
`i` current index, `s` token start, and the `lspace`/`quote`/`lquote`
flags; `fuel` equals `line.length - i` at every call. -/
def patlAux (line : List Nat) :
    Nat → Nat → Nat → Bool → Bool → Bool → List (List Nat) →
    Except PErr (List (List Nat))
  | 0, _i, s, _lspace, quote, _lquote, args =>
    if quote then .error .unbalancedQuotes
    else if s < line.length then .ok (args ++ [line.drop s])
    else .ok args
  | fuel + 1, i, s, lspace, quote, lquote, args =>
    let ch := byteAt line i
    if ch = 34 then
      if quote then patlAux line fuel (i + 1) (i + 1) lspace false true (args ++ [sliceGo line (s + 1) i])
      else if lspace = false then .error .unbalancedQuotes
      else patlAux line fuel (i + 1) s false true lquote args
    else if ch = 32 then
      if lquote then patlAux line fuel (i + 1) (s + 1) lspace quote lquote args
      else patlAux line fuel (i + 1) (i + 1) true quote lquote (args ++ [sliceGo line s i])
    else patlAux line fuel (i + 1) s false quote lquote args

/-- Go `parseArgsFromTelnetLine(line)`. -/
def parseArgsFromTelnetLine (line : List Nat) : Except PErr (List (List Nat)) :=
  patlAux line line.length 0 0 true false false []

/-- The `line` value of `readBufferedTelnetCommand` when the LF is at
index `i`: the bytes before the LF, with an immediately preceding CR
stripped. -/
def telnetLine (data : List Nat) (i : Nat) : List Nat :=
  if byteAt data (i - 1) = 13 then data.take (i - 1) else data.take i

/-- Go `readBufferedTelnetCommand(data)`: scan for the first LF starting at
index 1 (the index-0 byte is never examined by the scan), strip an
immediately preceding CR, tokenize the line. -/
def readBufferedTelnetCommand (data : List Nat) : ParseResult :=
  match findLFFrom data 1 with
  | none => .more
  | some i =>
    if (telnetLine data i).isEmpty then .ok (data.take (i + 1)) [] true
    else
      match parseArgsFromTelnetLine (telnetLine data i) with
      | .error e => .perr e
      | .ok args => .ok (data.take (i + 1)) args true

/-- Result of parsing one `$<len>\r\n<bytes>\r\n` bulk field at (Go `int`)
index `i`: need more data, protocol error, runtime panic, or the argument
bytes together with the index just past the bulk's trailing CRLF. -/
inductive BulkStep where
  | bMore
  | bPerr (e : PErr)
  | bPanic
  | bOk (arg : List Nat) (i2 : Int)
deriving DecidableEq, Repr

/-- One iteration of the source's bulk loop body (lines 292-320):
`i == len(data)` check, `'$'` check, length-line scan, `ParseUint`,
the `len(data)-i < int(n2+2)` sufficiency test with its 64-bit wraparound,
and the `data[i:i+int(n2)]` slice, which panics when `int(n2)` is negative
or reaches past the end of the buffer. -/
def parseOneBulk (data : List Nat) (i : Int) : BulkStep :=
  if i = (data.length : Int) then .bMore
  else if i < 0 ∨ (data.length : Int) < i then .bPanic
  else if byteAt data i.toNat ≠ 36 then .bPerr (.expectedDollar (byteAt data i.toNat))
  else
    match findLFFrom data i.toNat with
    | none => .bMore
    | some k =>
      if byteAt data (k - 1) ≠ 13 then .bPerr .invalidBulkLen
      else
        match parseGoUint (sliceGo data (i.toNat + 1) (k - 1)) with
        | none => .bPerr .invalidBulkLen
        | some n2 =>
          if (data.length : Int) - ((k + 1 : Nat) : Int) < toInt64 (n2 + 2) then .bMore
          else if toInt64 n2 < 0 ∨ (data.length : Int) < ((k + 1 : Nat) : Int) + toInt64 n2 then .bPanic
          else .bOk (sliceGo data (k + 1) (((k + 1 : Nat) : Int) + toInt64 n2).toNat)
                 (((k + 1 : Nat) : Int) + toInt64 (n2 + 2))

/-- The source's `for j := int64(0); j < n; j++` bulk loop; `count` is the
number of bulks still to read (`n - j`).  On the last bulk the source
returns `data[:i]`, which panics when the wrapped index went negative. -/
def parseBulks (data : List Nat) : Nat → Int → List (List Nat) → ParseResult
  | 0, _, _ => .more
  | count + 1, i, args =>
    match parseOneBulk data i with
    | .bMore => .more
    | .bPerr e => .perr e
    | .bPanic => .panicked
    | .bOk arg i2 =>
      if count = 0 then
        if i2 < 0 then .panicked
        else .ok (data.take i2.toNat) (args ++ [arg]) false
      else parseBulks data count i2 (args ++ [arg])

/-- The multibulk branch of Go `readBufferedCommand`: find the header line's
LF (scanning from index 1), check the CR, `ParseInt` the count `N`;
`N ≤ 0` consumes just the header with an empty argument list, otherwise
the bulk loop runs. -/
def readBufferedMultibulk (data : List Nat) : ParseResult :=
  match findLFFrom data 1 with
  | none => .more
  | some i =>
    if byteAt data (i - 1) ≠ 13 then .perr .invalidMultibulkLen
    else
      match parseGoInt (sliceGo data 1 (i - 1)) with
      | none => .perr .invalidMultibulkLen
      | some n =>
        if n ≤ 0 then .ok (data.take (i + 1)) [] false
        else parseBulks data n.toNat ((i : Int) + 1) []

/-- Go `readBufferedCommand(data)`: multibulk when the first byte is `'*'`,
inline/telnet framing otherwise.  The source is only invoked on non-empty
buffers; on `[]` this definition yields `.more`. -/
def readBufferedCommand (data : List Nat) : ParseResult :=
  if byteAt data 0 = 42 then readBufferedMultibulk data
  else readBufferedTelnetCommand data

/-- The mutable state of a Go `CommandReader`: the pending buffer, the
`copied` flag, and the byte chunks the underlying `io.Reader` will deliver
on successive `Read` calls (an empty list of chunks models end-of-stream). -/
structure RS where
  buf : List Nat
  copied : Bool
  chunks : List (List Nat)
deriving DecidableEq, Repr

/-- Outcome of one `CommandReader.ReadCommand()` call: a command with its
raw bytes, argument list, and flush flag; end-of-stream; a protocol error;
or a propagated runtime panic. -/
inductive ROut where
  | cmd (raw : List Nat) (args : List (List Nat)) (flush : Bool)
  | eofR
  | perrR (e : PErr)
  | panickedR
deriving DecidableEq, Repr

/-- Go `CommandReader.ReadCommand` (lines 230-272), with the tail
self-invocation after each `Read` turned into structural recursion:
`fuel` bounds the number of `Read` calls and every caller passes
`chunks.length`, which always suffices because each recursion consumes one
chunk.  The third Go return value of `readBufferedCommand` is bound and
discarded (`telnet = telnet` in the source), so the flush flag is `true`
exactly on the buffer-drained path and `rd.copied` otherwise. -/
def readCommandGoAux : Nat → List Nat → Bool → List (List Nat) → ROut × RS
  | 0, buf, copied, chunks =>
    (match (if 0 < buf.length then readBufferedCommand buf else ParseResult.more) with
     | .perr e => (.perrR e, ⟨buf, copied, chunks⟩)
     | .panicked => (.panickedR, ⟨buf, copied, chunks⟩)
     | .ok raw args _telnet =>
       if raw.length = buf.length then (.cmd raw args true, ⟨[], copied, chunks⟩)
       else (.cmd raw args copied, ⟨buf.drop raw.length, copied, chunks⟩)
     | .more =>
       match chunks with
       | [] => (.eofR, ⟨buf, copied || decide (0 < buf.length), []⟩)
       | c :: rest => (.eofR, ⟨buf, copied, c :: rest⟩))
  | f + 1, buf, copied, chunks =>
    (match (if 0 < buf.length then readBufferedCommand buf else ParseResult.more) with
     | .perr e => (.perrR e, ⟨buf, copied, chunks⟩)
     | .panicked => (.panickedR, ⟨buf, copied, chunks⟩)
     | .ok raw args _telnet =>
       if raw.length = buf.length then (.cmd raw args true, ⟨[], copied, chunks⟩)
       else (.cmd raw args copied, ⟨buf.drop raw.length, copied, chunks⟩)
     | .more =>
       match chunks with
       | [] => (.eofR, ⟨buf, copied || decide (0 < buf.length), []⟩)
       | c :: rest =>
         if buf.length = 0 then readCommandGoAux f c false rest
         else readCommandGoAux f (buf ++ c) true rest)

/-- `ReadCommand` on a reader state: the fuel is the number of pending
chunks, which the recursion never exhausts. -/
def readCommandGo (buf : List Nat) (copied : Bool) (chunks : List (List Nat)) : ROut × RS :=
  readCommandGoAux chunks.length buf copied chunks

/-- The ordered list of argument lists produced by successive `ReadCommand`
calls, stopping at end-of-stream, protocol error or panic; `fuel` bounds
the number of commands collected. -/
def collectTail : Nat → List Nat → Bool → List (List Nat) → List (List (List Nat))
  | 0, _, _, _ => []
  | fuel + 1, buf, copied, chunks =>
    match readCommandGo buf copied chunks with
    | (.cmd _ args _, rs2) => args :: collectTail fuel rs2.buf rs2.copied rs2.chunks
    | _ => []

/-- Reference stream semantics: repeatedly parse the concatenated remaining
bytes directly ("one piece"), consuming each command's raw bytes. -/
def refCollect : Nat → List Nat → List (List (List Nat))
  | 0, _ => []
  | fuel + 1, s =>
    match readBufferedCommand s with
    | .ok raw args _ => args :: refCollect fuel (s.drop raw.length)
    | _ => []

/-- Lexicographic byte-string order (Go `key.Name < item.Name` on strings),
the order of the server's btree keyspace. -/
def natListLt : List Nat → List Nat → Bool
  | [], [] => false
  | [], _ :: _ => true
  | _ :: _, [] => false
  | a :: as, b :: bs => if a < b then true else if b < a then false else natListLt as bs

/-- The keyspace: name/value entries kept in btree (name-sorted) order. -/
abbrev KS := List (List Nat × List Nat)

/-- `Server.GetKey`: point lookup. -/
def ksGet : KS → List Nat → Option (List Nat)
  | [], _ => none
  | (k, v) :: rest, name => if k = name then some v else ksGet rest name

/-- `Server.SetKey` (`btree.ReplaceOrInsert`): ordered upsert. -/
def ksSet : KS → List Nat → List Nat → KS
  | [], name, v => [(name, v)]
  | (k, w) :: rest, name, v =>
    if natListLt name k then (name, v) :: (k, w) :: rest
    else if natListLt k name then (k, w) :: ksSet rest name v
    else (name, v) :: rest

/-- `Server.DelKey` (`btree.Delete`): remove the entry when present. -/
def ksDel : KS → List Nat → KS
  | [], _ => []
  | (k, w) :: rest, name => if k = name then rest else (k, w) :: ksDel rest name

/-- A registry entry: the `Command` struct of the source.  The handler is
modelled as its effect on the keyspace (handler reply bytes are outside the
core per spec section 1). -/
structure Command where
  write : Bool
  read : Bool
  func : List (List Nat) → KS → KS

/-- One step of the option-string scan of `register` (lines 57-67): byte
`'w'` sets Write and clears Read; byte `'r'` sets Read only when Write is
unset; other bytes are ignored.  The pair is `(Write, Read)`. -/
def optStep (wr : Bool × Bool) (c : Nat) : Bool × Bool :=
  if c = 114 then (wr.1, if wr.1 then wr.2 else true)
  else if c = 119 then (true, false)
  else wr

/-- The whole option-string scan of `register`, starting from the zero
`Command` value. -/
def parseOpts (opts : List Nat) : Bool × Bool :=
  opts.foldl optStep (false, false)

/-- The `Command` value `register` builds from a handler and options. -/
def mkCommand (f : List (List Nat) → KS → KS) (opts : List Nat) : Command :=
  { write := (parseOpts opts).1, read := (parseOpts opts).2, func := f }

/-- `Server.register`: map assignment, newest binding wins. -/
def register (tbl : List (List Nat × Command)) (name : List Nat)
    (f : List (List Nat) → KS → KS) (opts : List Nat) : List (List Nat × Command) :=
  (name, mkCommand f opts) :: tbl

/-- Modelled from the spec: the body of `getCommand` is not under `src/`
(spec section 4.1 — a read handler only reads the keyspace). -/
def getCommand : List (List Nat) → KS → KS := fun _ ks => ks

/-- Modelled from the spec: the body of `setCommand` is not under `src/`
(spec section 4.1 — upsert `args[1] := args[2]`; on any other arity the
handler replies an error without touching the keyspace). -/
def setCommand : List (List Nat) → KS → KS
  | [_, k, v], ks => ksSet ks k v
  | _, ks => ks

/-- Modelled from the spec: the body of `delCommand` is not under `src/`
(spec section 4.1 — delete `args[1]`; other arities leave the keyspace
unchanged). -/
def delCommand : List (List Nat) → KS → KS
  | [_, k], ks => ksDel ks k
  | _, ks => ks

/-- `Server.commandTable` (lines 19-23). -/
def commandTable : List (List Nat × Command) :=
  register (register (register [] (strBytes "get") getCommand (strBytes "r"))
    (strBytes "set") setCommand (strBytes "w"))
    (strBytes "del") delCommand (strBytes "w")

/-- `s.commands[name]` lookup in the built table. -/
def lookupCmd : List (List Nat × Command) → List Nat → Option Command
  | [], _ => none
  | (k, c) :: rest, name => if k = name then some c else lookupCmd rest name

/-- ASCII case mapping of `strings.ToLower`; the registered command names
and the pseudo-commands are ASCII, so this agrees with Go on every
dispatch-relevant comparison. -/
def toLowerL (s : List Nat) : List Nat :=
  s.map (fun c => if 65 ≤ c ∧ c ≤ 90 then c + 32 else c)

/-- Modelled from the spec: `Client.ReplyError` is not under `src/`
(spec section 6 — error replies are `-ERR <msg>\r\n`). -/
def replyError (msg : List Nat) : List Nat := strBytes "-ERR " ++ msg ++ [13, 10]

/-- Modelled from the spec: `Client.ReplyString` is not under `src/`
(spec section 6 — simple-string replies are `+<msg>\r\n`). -/
def replyString (msg : List Nat) : List Nat := [43] ++ msg ++ [13, 10]

/-- `protocolError.Error()` (lines 219-221). -/
def protocolErrorMsg (e : PErr) : List Nat := strBytes "Protocol error: " ++ perrBytes e

/-- The shared server state touched by a connection: the keyspace, the log
staging buffer `aofbuf`, and the log file contents `aofFile`. -/
structure Srv where
  ks : KS
  aofbuf : List Nat
  aofFile : List Nat
deriving DecidableEq, Repr

/-- How a `handleConn` run ends: connection closed (end-of-stream, `quit`,
or protocol error), process crash by panic, or out of fuel. -/
inductive ConnRes where
  | closed (srv : Srv) (out : List Nat)
  | crashed (srv : Srv) (out : List Nat)
  | fuelOut (srv : Srv) (out : List Nat)
deriving DecidableEq, Repr

/-- One iteration of the Go `handleConn` loop (lines 155-212): either the
connection ends (`inl`) or the loop continues with updated server state,
reader state, and output (`inr`).  Empty argument lists are skipped
(`continue`, which also skips the flush block); `quit` and `ping` are
answered before registry lookup; a registered command runs its handler and,
when write-classified, appends its raw bytes to the staging buffer; at a
flush point the staging buffer is drained to the log file. -/
def handleStep (srv : Srv) (rs : RS) (out : List Nat) :
    ConnRes ⊕ (Srv × RS × List Nat) :=
  match readCommandGo rs.buf rs.copied rs.chunks with
  | (.eofR, _) => .inl (.closed srv out)
  | (.perrR e, _) => .inl (.closed srv (out ++ replyError (protocolErrorMsg e)))
  | (.panickedR, _) => .inl (.crashed srv out)
  | (.cmd raw args flush, rs2) =>
    if args.isEmpty then .inr (srv, rs2, out)
    else
      let command := toLowerL args.headI
      if command = strBytes "quit" then
        .inl (.closed srv (out ++ replyString (strBytes "OK")))
      else
        let step :=
          if command = strBytes "ping" then (srv, out ++ replyString (strBytes "PONG"))
          else
            match lookupCmd commandTable command with
            | some cmd =>
              ({ srv with
                  ks := cmd.func args srv.ks
                  aofbuf := if cmd.write then srv.aofbuf ++ raw else srv.aofbuf }, out)
            | none =>
              (srv, out ++ replyError (strBytes "unknown command " ++ [39] ++ args.headI ++ [39]))
        let srv2 :=
          if flush then
            { step.1 with aofbuf := [], aofFile := step.1.aofFile ++ step.1.aofbuf }
          else step.1
        .inr (srv2, rs2, step.2)

/-- Go `handleConn` (lines 149-213): iterate `handleStep` until the
connection ends, with `out` the bytes written to the client socket. -/
def handleLoop : Nat → Srv → RS → List Nat → ConnRes
  | 0, srv, _rs, out => .fuelOut srv out
  | fuel + 1, srv, rs, out =>
    match handleStep srv rs out with
    | .inl r => r
    | .inr s => handleLoop fuel s.1 s.2.1 s.2.2

/-- How the startup replay of `Start` (lines 112-132) ends: clean
end-of-file, `log.Fatalf` on a parse fault, or a runtime panic
(`args[0]` on an empty argument list, or a propagated parser panic). -/
inductive ReplayRes where
  | done (ks : KS)
  | fatal (ks : KS)
  | crashedR (ks : KS)
  | fuelOutR (ks : KS)
deriving DecidableEq, Repr

/-- The AOF replay loop of `Start`: dispatch each decoded command through
`s.commands[args[0]]` — with no `ToLower`, no `quit`/`ping` handling, no
locking and no re-logging — against the keyspace; unknown names only
produce a discarded error reply. -/
def replayLoop : Nat → KS → RS → ReplayRes
  | 0, ks, _ => .fuelOutR ks
  | fuel + 1, ks, rs =>
    match readCommandGo rs.buf rs.copied rs.chunks with
    | (.eofR, _) => .done ks
    | (.perrR _, _) => .fatal ks
    | (.panickedR, _) => .crashedR ks
    | (.cmd _raw args _flush, rs2) =>
      match args with
      | [] => .crashedR ks
      | a0 :: _ =>
        match lookupCmd commandTable a0 with
        | some cmd => replayLoop fuel (cmd.func args ks) rs2
        | none => replayLoop fuel ks rs2

/-! ## Basic properties of the helpers -/

theorem readBufferedCommand_nil : readBufferedCommand [] = .more := rfl

theorem scrutinee_eq (buf : List Nat) :
    (if 0 < buf.length then readBufferedCommand buf else ParseResult.more)
      = readBufferedCommand buf := by
  cases buf with
  | nil => simp [readBufferedCommand_nil]
  | cons a l => simp

theorem take_append_of_le {d e : List Nat} {n : Nat} (h : n ≤ d.length) :
    (d ++ e).take n = d.take n := by
  rw [List.take_append_eq_append_take, Nat.sub_eq_zero_of_le h, List.take_zero,
    List.append_nil]

theorem drop_append_of_le {d e : List Nat} {n : Nat} (h : n ≤ d.length) :
    (d ++ e).drop n = d.drop n ++ e := by
  rw [List.drop_append_eq_append_drop, Nat.sub_eq_zero_of_le h, List.drop_zero]

theorem byteAt_append_left {d e : List Nat} {i : Nat} (h : i < d.length) :
    byteAt (d ++ e) i = byteAt d i := by
  unfold byteAt
  rw [List.getD_eq_getElem?_getD, List.getD_eq_getElem?_getD,
    List.getElem?_append, if_pos h]

theorem sliceGo_append {d e : List Nat} {lo hi : Nat} (h : hi ≤ d.length) :
    sliceGo (d ++ e) lo hi = sliceGo d lo hi := by
  unfold sliceGo
  rw [take_append_of_le h]

theorem findLFAux_append {l m : List Nat} {s k : Nat} (h : findLFAux l s = some k) :
    findLFAux (l ++ m) s = some k := by
  induction l generalizing s with
  | nil => simp [findLFAux] at h
  | cons b rest ih =>
    simp only [List.cons_append, findLFAux] at h ⊢
    by_cases hb : b = 10
    · simpa [hb] using h
    · simp only [if_neg hb] at h ⊢
      exact ih h

theorem findLFAux_bounds {l : List Nat} {s k : Nat} (h : findLFAux l s = some k) :
    s ≤ k ∧ k - s < l.length := by
  induction l generalizing s with
  | nil => simp [findLFAux] at h
  | cons b rest ih =>
    simp only [findLFAux] at h
    by_cases hb : b = 10
    · simp [hb] at h
      simp only [List.length_cons]
      omega
    · simp only [if_neg hb] at h
      have := ih h
      simp only [List.length_cons]
      omega

theorem findLFFrom_append {d e : List Nat} {s k : Nat} (h : findLFFrom d s = some k) :
    findLFFrom (d ++ e) s = some k := by
  unfold findLFFrom at h ⊢
  have hs : s ≤ d.length := by
    by_contra hs
    rw [List.drop_eq_nil_of_le (by omega)] at h
    simp [findLFAux] at h
  rw [drop_append_of_le hs]
  exact findLFAux_append h

theorem findLFFrom_lt {d : List Nat} {s k : Nat} (h : findLFFrom d s = some k) :
    s ≤ k ∧ k < d.length := by
  unfold findLFFrom at h
  have hb := findLFAux_bounds h
  rw [List.length_drop] at hb
  omega

theorem toInt64_of_lt {u : Nat} (h : u < 2 ^ 63) : toInt64 u = (u : Nat) := by
  unfold toInt64
  rw [Nat.mod_eq_of_lt (by omega), if_pos h]

theorem toInt64_nonneg_iff {u : Nat} (hu : u < 2 ^ 64) : 0 ≤ toInt64 u ↔ u < 2 ^ 63 := by
  unfold toInt64
  rw [Nat.mod_eq_of_lt hu]
  constructor
  · intro h
    by_contra hc
    rw [if_neg (by omega)] at h
    omega
  · intro h
    rw [if_pos h]
    positivity

theorem parseGoUint_lt {s : List Nat} {n : Nat} (h : parseGoUint s = some n) : n < 2 ^ 64 := by
  unfold parseGoUint at h
  split at h
  · simp at h
  · split at h
    · split at h
      · simp at h
        omega
      · simp at h
    · simp at h

theorem parseBulks_ok_take {data : List Nat} :
    ∀ (count : Nat) (i : Int) (args0 : List (List Nat)) raw args t,
      parseBulks data count i args0 = .ok raw args t → ∃ m, raw = data.take m := by
  intro count
  induction count with
  | zero =>
    intro i args0 raw args t h
    simp [parseBulks] at h
  | succ c ih =>
    intro i args0 raw args t h
    simp only [parseBulks] at h
    cases hob : parseOneBulk data i with
    | bMore => rw [hob] at h; simp at h
    | bPerr e => rw [hob] at h; simp at h
    | bPanic => rw [hob] at h; simp at h
    | bOk arg i2 =>
      rw [hob] at h
      simp only at h
      by_cases hc : c = 0
      · rw [if_pos hc] at h
        split at h
        · simp at h
        · exact ⟨i2.toNat, by simp_all⟩
      · rw [if_neg hc] at h
        exact ih i2 (args0 ++ [arg]) raw args t h

theorem parse_ok_take {data raw : List Nat} {args : List (List Nat)} {t : Bool}
    (h : readBufferedCommand data = .ok raw args t) : ∃ m, raw = data.take m := by
  unfold readBufferedCommand at h
  split at h
  · unfold readBufferedMultibulk at h
    split at h
    · simp at h
    · rename_i i heq
      split at h
      · simp at h
      · split at h
        · simp at h
        · split at h
          · injection h with h1 h2 h3
            exact ⟨i + 1, h1.symm⟩
          · exact parseBulks_ok_take _ _ _ _ _ _ h
  · unfold readBufferedTelnetCommand at h
    split at h
    · simp at h
    · rename_i i heq
      split at h
      · injection h with h1 h2 h3
        exact ⟨i + 1, h1.symm⟩
      · split at h
        · simp at h
        · injection h with h1 h2 h3
          exact ⟨i + 1, h1.symm⟩

theorem parse_ok_len_le {data raw : List Nat} {args : List (List Nat)} {t : Bool}
    (h : readBufferedCommand data = .ok raw args t) : raw.length ≤ data.length := by
  obtain ⟨m, rfl⟩ := parse_ok_take h
  simp [List.length_take]

theorem readCommandGoAux_zero (buf : List Nat) (copied : Bool) (chunks : List (List Nat)) :
    readCommandGoAux 0 buf copied chunks =
      (match (if 0 < buf.length then readBufferedCommand buf else ParseResult.more) with
       | .perr e => (.perrR e, ⟨buf, copied, chunks⟩)
       | .panicked => (.panickedR, ⟨buf, copied, chunks⟩)
       | .ok raw args _telnet =>
         if raw.length = buf.length then (.cmd raw args true, ⟨[], copied, chunks⟩)
         else (.cmd raw args copied, ⟨buf.drop raw.length, copied, chunks⟩)
       | .more =>
         match chunks with
         | [] => (.eofR, ⟨buf, copied || decide (0 < buf.length), []⟩)
         | c :: rest => (.eofR, ⟨buf, copied, c :: rest⟩)) := rfl

theorem readCommandGoAux_succ (f : Nat) (buf : List Nat) (copied : Bool)
    (chunks : List (List Nat)) :
    readCommandGoAux (f + 1) buf copied chunks =
      (match (if 0 < buf.length then readBufferedCommand buf else ParseResult.more) with
       | .perr e => (.perrR e, ⟨buf, copied, chunks⟩)
       | .panicked => (.panickedR, ⟨buf, copied, chunks⟩)
       | .ok raw args _telnet =>
         if raw.length = buf.length then (.cmd raw args true, ⟨[], copied, chunks⟩)
         else (.cmd raw args copied, ⟨buf.drop raw.length, copied, chunks⟩)
       | .more =>
         match chunks with
         | [] => (.eofR, ⟨buf, copied || decide (0 < buf.length), []⟩)
         | c :: rest =>
           if buf.length = 0 then readCommandGoAux f c false rest
           else readCommandGoAux f (buf ++ c) true rest) := rfl

theorem readCommandGoAux_cmd_flush :
    ∀ (fuel : Nat) (buf : List Nat) (copied : Bool) (chunks : List (List Nat))
      (raw : List Nat) (args : List (List Nat)) (flush : Bool) (rs2 : RS),
      readCommandGoAux fuel buf copied chunks = (.cmd raw args flush, rs2) →
      flush = (rs2.buf.isEmpty || rs2.copied) := by
  intro fuel
  induction fuel with
  | zero =>
    intro buf copied chunks raw args flush rs2 h
    rw [readCommandGoAux_zero] at h
    rw [scrutinee_eq] at h
    cases hp : readBufferedCommand buf with
    | ok raw2 args2 t2 =>
      rw [hp] at h
      simp only at h
      split at h
      · rename_i hdrain
        injection h with h1 h2
        injection h1 with h3 h4 h5
        subst h5
        subst h2
        simp
      · rename_i hnd
        injection h with h1 h2
        injection h1 with h3 h4 h5
        subst h5
        subst h2
        have hle := parse_ok_len_le hp
        cases hEmp : (buf.drop raw2.length).isEmpty with
        | false => simp [hEmp]
        | true =>
          exfalso
          have hnil := List.isEmpty_iff.mp hEmp
          rw [List.drop_eq_nil_iff] at hnil
          omega
    | more =>
      rw [hp] at h
      simp only at h
      cases chunks with
      | nil => simp at h
      | cons c rest => simp at h
    | perr e =>
      rw [hp] at h
      simp at h
    | panicked =>
      rw [hp] at h
      simp at h
  | succ f ih =>
    intro buf copied chunks raw args flush rs2 h
    rw [readCommandGoAux_succ] at h
    rw [scrutinee_eq] at h
    cases hp : readBufferedCommand buf with
    | ok raw2 args2 t2 =>
      rw [hp] at h
      simp only at h
      split at h
      · rename_i hdrain
        injection h with h1 h2
        injection h1 with h3 h4 h5
        subst h5
        subst h2
        simp
      · rename_i hnd
        injection h with h1 h2
        injection h1 with h3 h4 h5
        subst h5
        subst h2
        have hle := parse_ok_len_le hp
        cases hEmp : (buf.drop raw2.length).isEmpty with
        | false => simp [hEmp]
        | true =>
          exfalso
          have hnil := List.isEmpty_iff.mp hEmp
          rw [List.drop_eq_nil_iff] at hnil
          omega
    | more =>
      rw [hp] at h
      simp only at h
      cases chunks with
      | nil => simp at h
      | cons c rest =>
        simp only at h
        split at h
        · exact ih _ _ _ _ _ _ _ h
        · exact ih _ _ _ _ _ _ _ h
    | perr e =>
      rw [hp] at h
      simp at h
    | panicked =>
      rw [hp] at h
      simp at h

theorem optStep_foldl_inv :
    ∀ (opts : List Nat) (wr : Bool × Bool), (wr.1 && wr.2) = false →
      ((opts.foldl optStep wr).1 && (opts.foldl optStep wr).2) = false := by
  intro opts
  induction opts with
  | nil =>
    intro wr h
    simpa using h
  | cons c rest ih =>
    intro wr h
    rw [List.foldl_cons]
    apply ih
    rcases wr with ⟨w, r⟩
    by_cases hc1 : c = 114 <;> by_cases hc2 : c = 119 <;>
      cases w <;> cases r <;> simp_all [optStep]

/-! ## Claim theorems -/

/-- C1: the claim asserts that replaying the log reproduces the live
keyspace even for non-lowercase command names such as `SET`.  The code
refutes it: a live `SET x 1` (multibulk frame) sets `x` to `1` and appends
the raw frame to the log, but the replay loop looks the name up without
`strings.ToLower`, finds no command called `SET`, and leaves the keyspace
empty — different from the live keyspace. -/
theorem c1_live_replay_divergence :
    handleLoop 2 ⟨[], [], []⟩
        ⟨[], false, [strBytes "*3\r\n$3\r\nSET\r\n$1\r\nx\r\n$1\r\n1\r\n"]⟩ []
      = .closed ⟨[(strBytes "x", strBytes "1")], [],
          strBytes "*3\r\n$3\r\nSET\r\n$1\r\nx\r\n$1\r\n1\r\n"⟩ []
    ∧ replayLoop 2 []
        ⟨[], false, [strBytes "*3\r\n$3\r\nSET\r\n$1\r\nx\r\n$1\r\n1\r\n"]⟩
      = .done []
    ∧ ([] : KS) ≠ [(strBytes "x", strBytes "1")] :=
  ⟨by decide, by decide, by decide⟩

/-- C3: the claim asserts that the inline line `set "a b" 1` decodes to
`["set", "a b", "1"]`.  The code refutes it: the space case of the
tokenizer never consults the `quote` flag, so the space inside the quotes
splits the token, and the actual result is `["set", "\"a", "", "1"]`. -/
theorem c3_quoted_space_eval :
    parseArgsFromTelnetLine (strBytes "set \"a b\" 1")
      = .ok [strBytes "set", [34, 97], [], strBytes "1"] := by rfl

/-- C4 counterexample: an inline (telnet-framed) command returned with
`flush = false`.  A single delivery `ping\nping\n` leaves the second
command in the buffer with `copied = false`, and `ReadCommand` returns the
first inline command with `flush = false` even though the buffered parse
marked it as telnet framing, refuting "every inline command is returned
with flush = true". -/
theorem c4_inline_flush_cex :
    readCommandGo [] false [strBytes "ping\nping\n"]
      = (.cmd (strBytes "ping\n") [strBytes "ping"] false,
         ⟨strBytes "ping\n", false, []⟩)
    ∧ readBufferedCommand (strBytes "ping\nping\n")
      = .ok (strBytes "ping\n") [strBytes "ping"] true :=
  ⟨by decide, by decide⟩

/-- C4 (amended): whenever `ReadCommand` successfully returns a command,
its flush flag is true exactly when the command drained the internal
buffer completely or the leftover buffered bytes had been copied into the
reader-owned buffer (the `copied` flag); the parser's inline/telnet
indication is discarded, so inline commands are not always flush points. -/
theorem c4_flush_characterization (buf : List Nat) (copied : Bool)
    (chunks : List (List Nat)) (raw : List Nat) (args : List (List Nat))
    (flush : Bool) (rs2 : RS)
    (h : readCommandGo buf copied chunks = (.cmd raw args flush, rs2)) :
    flush = (rs2.buf.isEmpty || rs2.copied) :=
  readCommandGoAux_cmd_flush _ _ _ _ _ _ _ _ h

/-- C4 witness: the amended characterization applied to a command that
exactly drains the buffer. -/
theorem c4_flush_characterization_witness :
    (true : Bool) = ((RS.mk [] false []).buf.isEmpty || (RS.mk [] false []).copied) :=
  c4_flush_characterization [13, 10] false [] [13, 10] [] true ⟨[], false, []⟩ (by decide)

/-- C5: the claim asserts a need-more-data outcome for every declared bulk
length the length parser accepts.  The code refutes it: `$18446744073709551614`
(that is `2^64 - 2`) declares a length far beyond the zero buffered content
bytes, yet `int(n2+2)` wraps to `0`, the sufficiency check passes, and the
`int(n2)` slice bound is `-2`, so the parser panics instead of returning
need-more-data. -/
theorem c5_overlong_bulk_eval :
    readBufferedCommand (strBytes "*1\r\n$18446744073709551614\r\n")
      = ParseResult.panicked := by decide

/-- C6: a multibulk frame with a non-numeric bulk length (`*2\r\n$abc\r\n`)
makes the connection handler send `-ERR Protocol error: invalid bulk length`
and close the connection, leaving the keyspace, the staging buffer and the
log file untouched, whatever their prior contents. -/
theorem c6_protocol_error_reply (ks : KS) (ab af : List Nat) :
    handleLoop 1 ⟨ks, ab, af⟩ ⟨[], false, [strBytes "*2\r\n$abc\r\n"]⟩ []
      = .closed ⟨ks, ab, af⟩ (replyError (protocolErrorMsg PErr.invalidBulkLen)) := rfl

/-- C6 witness: the reply/close behavior at the empty initial state. -/
theorem c6_protocol_error_reply_witness :
    handleLoop 1 ⟨[], [], []⟩ ⟨[], false, [strBytes "*2\r\n$abc\r\n"]⟩ []
      = .closed ⟨[], [], []⟩ (replyError (protocolErrorMsg PErr.invalidBulkLen)) :=
  c6_protocol_error_reply [] [] []

/-- C8 counterexample: the claim asserts that a line consisting of a single
LF byte decodes to an empty argument list; the code refutes it — the
terminator scan starts at index 1, so a buffer holding exactly one LF byte
is a need-more-data outcome, not a decoded empty command. -/
theorem c8_lone_lf_cex : readBufferedCommand [10] = ParseResult.more := by decide

/-- C8 (amended): in inline framing an empty line is recognized only
through its CRLF form: a buffer beginning with CR LF decodes to an empty
argument list consuming exactly those two bytes; a buffer holding a single
LF byte is not recognized (the LF at index 0 is skipped by the scan) and
yields need-more-data. -/
theorem c8_empty_line_crlf (rest : List Nat) :
    readBufferedCommand (13 :: 10 :: rest) = .ok [13, 10] [] true
    ∧ readBufferedCommand [10] = ParseResult.more := by
  constructor
  · simp [readBufferedCommand, readBufferedTelnetCommand, byteAt, findLFFrom,
      findLFAux, telnetLine]
  · decide

/-- C8 witness: the CRLF empty line at the start of a buffer with trailing
bytes. -/
theorem c8_empty_line_crlf_witness :
    readBufferedCommand (13 :: 10 :: strBytes "get x\r\n") = .ok [13, 10] [] true :=
  (c8_empty_line_crlf (strBytes "get x\r\n")).1

/-- C9: the claim asserts every buffer access stays in range even for
declared bulk lengths up to `2^64 - 1`.  The code refutes it: on
`*1\r\n$18446744073709551615\r\nX` the parser computes `int(n2+2) = 1`, the
sufficiency check passes against the single buffered byte, and the slice
`data[i : i + int(n2)]` has upper bound `i - 1`, an out-of-range slice —
a runtime panic, not a decoded command, need-more-data, or protocol error. -/
theorem c9_bulklen_wraparound_eval :
    readBufferedCommand (strBytes "*1\r\n$18446744073709551615\r\nX")
      = ParseResult.panicked := by decide

/-- C10: for every options string, the `Command` record that `register`
builds never has both Write and Read set: `'w'` forces Write and clears
Read, and `'r'` sets Read only when Write is unset, so each registered
command is exclusively read- or write-classified (or neither). -/
theorem c10_read_write_exclusive (f : List (List Nat) → KS → KS) (opts : List Nat) :
    ((mkCommand f opts).write && (mkCommand f opts).read) = false := by
  unfold mkCommand
  exact optStep_foldl_inv opts (false, false) rfl

/-- C10 witness: the exclusivity at the registration options actually used
by the command table. -/
theorem c10_read_write_exclusive_witness :
    ((mkCommand setCommand (strBytes "w")).write
      && (mkCommand setCommand (strBytes "w")).read) = false :=
  c10_read_write_exclusive setCommand (strBytes "w")

theorem handleLoop_succ (fuel : Nat) (srv : Srv) (rs : RS) (out : List Nat) :
    handleLoop (fuel + 1) srv rs out =
      match handleStep srv rs out with
      | .inl r => r
      | .inr s => handleLoop fuel s.1 s.2.1 s.2.2 := rfl

theorem take_append_len_add (l m : List Nat) (k : Nat) :
    (l ++ m).take (l.length + k) = l ++ m.take k := by
  induction l with
  | nil => simp
  | cons a l ih =>
    simp only [List.cons_append, List.length_cons]
    rw [show l.length + 1 + k = (l.length + k) + 1 by omega]
    simp [List.take_succ_cons, ih]

theorem getD_append_self (l : List Nat) (b : Nat) (r : List Nat) :
    (l ++ b :: r).getD l.length 0 = b := by
  induction l with
  | nil => simp
  | cons a l ih => simpa using ih

theorem findLFAux_no10 {l : List Nat} (h : 10 ∉ l) (r : List Nat) (s : Nat) :
    findLFAux (l ++ 13 :: 10 :: r) s = some (s + l.length + 1) := by
  induction l generalizing s with
  | nil => simp [findLFAux]
  | cons a l ih =>
    have ha : ¬ a = 10 := fun hc => h (by simp [hc])
    have ht : 10 ∉ l := fun hc => h (by simp [hc])
    simp only [List.cons_append, findLFAux, if_neg ha, List.append_eq]
    rw [ih ht]
    congr 1
    simp only [List.length_cons]
    omega

theorem digitsValAux_mem {l : List Nat} :
    ∀ {acc v : Nat}, digitsValAux acc l = some v → ∀ c ∈ l, 48 ≤ c ∧ c ≤ 57 := by
  induction l with
  | nil => simp
  | cons a l ih =>
    intro acc v h c hc
    simp only [digitsValAux] at h
    split at h
    · rename_i hd
      rcases List.mem_cons.mp hc with rfl | hmem
      · exact hd
      · exact ih h c hmem
    · simp at h

theorem parseGoInt_no_lf {s : List Nat} {n : Int} (h : parseGoInt s = some n) : 10 ∉ s := by
  cases s with
  | nil => simp [parseGoInt] at h
  | cons c rest =>
    simp only [parseGoInt] at h
    by_cases h45 : c = 45
    · rw [if_pos h45] at h
      cases hr : (if rest.isEmpty then none else digitsValAux 0 rest) with
      | none => rw [hr] at h; simp at h
      | some v =>
        rw [hr] at h
        split at hr
        · simp at hr
        · intro hmem
          rcases List.mem_cons.mp hmem with h10 | hmem2
          · omega
          · have := digitsValAux_mem hr 10 hmem2
            omega
    · rw [if_neg h45] at h
      by_cases h43 : c = 43
      · rw [if_pos h43] at h
        cases hr : (if rest.isEmpty then none else digitsValAux 0 rest) with
        | none => rw [hr] at h; simp at h
        | some v =>
          rw [hr] at h
          split at hr
          · simp at hr
          · intro hmem
            rcases List.mem_cons.mp hmem with h10 | hmem2
            · omega
            · have := digitsValAux_mem hr 10 hmem2
              omega
      · rw [if_neg h43] at h
        cases hr : digitsValAux 0 (c :: rest) with
        | none => rw [hr] at h; simp at h
        | some v =>
          intro hmem
          have := digitsValAux_mem hr 10 hmem
          omega

/-- C7: a multibulk header `*<N>\r\n` whose `ParseInt`-accepted count `N` is
`≤ 0` decodes to an empty argument list consuming exactly the header
line's bytes; and the connection loop treats a command with an empty
argument list as a silent skip — the server state and output are untouched
and the loop simply continues with the advanced reader state (the
`continue` also skips the flush block). -/
theorem c7_nonpositive_count_skip :
    (∀ (digits rest : List Nat) (n : Int), parseGoInt digits = some n → n ≤ 0 →
      readBufferedCommand (42 :: digits ++ 13 :: 10 :: rest)
        = .ok (42 :: digits ++ [13, 10]) [] false)
    ∧ (∀ (fuel : Nat) (srv : Srv) (rs : RS) (out raw : List Nat) (flush : Bool) (rs2 : RS),
      readCommandGo rs.buf rs.copied rs.chunks = (.cmd raw [] flush, rs2) →
      handleLoop (fuel + 1) srv rs out = handleLoop fuel srv rs2 out) := by
  constructor
  · intro digits rest n hn hle
    have hno : 10 ∉ digits := parseGoInt_no_lf hn
    have h0 : byteAt (42 :: digits ++ 13 :: 10 :: rest) 0 = 42 := by simp [byteAt]
    unfold readBufferedCommand
    rw [h0, if_pos rfl]
    unfold readBufferedMultibulk
    have hf : findLFFrom (42 :: digits ++ 13 :: 10 :: rest) 1 = some (digits.length + 2) := by
      unfold findLFFrom
      rw [show (42 :: digits ++ 13 :: 10 :: rest).drop 1 = digits ++ 13 :: 10 :: rest from rfl]
      rw [findLFAux_no10 hno rest 1]
      congr 1
      omega
    rw [hf]
    dsimp only
    have hb13 : byteAt (42 :: digits ++ 13 :: 10 :: rest) (digits.length + 2 - 1) = 13 := by
      rw [show digits.length + 2 - 1 = digits.length + 1 by omega]
      unfold byteAt
      exact getD_append_self (42 :: digits) 13 (10 :: rest)
    rw [hb13, if_neg (by simp)]
    have hsl : sliceGo (42 :: digits ++ 13 :: 10 :: rest) 1 (digits.length + 2 - 1) = digits := by
      have h1 : digits.length + 2 - 1 = (42 :: digits).length + 0 := by simp
      rw [h1]
      unfold sliceGo
      rw [take_append_len_add]
      simp
    rw [hsl, hn]
    dsimp only
    rw [if_pos hle]
    have htk : (42 :: digits ++ 13 :: 10 :: rest).take (digits.length + 2 + 1)
        = 42 :: digits ++ [13, 10] := by
      have h2 : digits.length + 2 + 1 = (42 :: digits).length + 2 := by simp
      rw [h2, take_append_len_add]
      simp
    rw [htk]
  · intro fuel srv rs out raw flush rs2 h
    rw [handleLoop_succ]
    have hstep : handleStep srv rs out = .inr (srv, rs2, out) := by
      unfold handleStep
      rw [h]
      simp
    rw [hstep]

/-- C7 witness: the header `*0\r\n` decodes to an empty argument list, and
a skipped empty command (an empty CRLF inline line) leaves one loop
iteration as a pure continue. -/
theorem c7_nonpositive_count_skip_witness :
    readBufferedCommand (42 :: [48] ++ 13 :: 10 :: ([] : List Nat))
      = .ok (42 :: [48] ++ [13, 10]) [] false
    ∧ handleLoop 1 ⟨[], [], []⟩ ⟨[13, 10], false, []⟩ []
      = handleLoop 0 ⟨[], [], []⟩ ⟨[], false, []⟩ [] :=
  ⟨c7_nonpositive_count_skip.1 [48] [] 0 (by rfl) (by decide),
   c7_nonpositive_count_skip.2 0 ⟨[], [], []⟩ ⟨[13, 10], false, []⟩ [] [13, 10] true
     ⟨[], false, []⟩ (by decide)⟩

theorem parseOneBulk_bOk_le {d : List Nat} {i : Int} {arg : List Nat} {i2 : Int}
    (h : parseOneBulk d i = .bOk arg i2) : i2 ≤ (d.length : Int) := by
  unfold parseOneBulk at h
  split at h
  · simp at h
  · split at h
    · simp at h
    · split at h
      · simp at h
      · split at h
        · simp at h
        · split at h
          · simp at h
          · split at h
            · simp at h
            · split at h
              · simp at h
              · split at h
                · simp at h
                · injection h with h1 h2
                  omega

theorem parseOneBulk_stable {d e : List Nat} (hB : (d ++ e).length ≤ 2 ^ 63 - 2)
    {i : Int} (hi : i ≤ (d.length : Int))
    (hm : parseOneBulk d i ≠ .bMore) :
    parseOneBulk (d ++ e) i = parseOneBulk d i := by
  have hlen : (d.length : Int) ≤ ((d ++ e).length : Int) := by
    have h1 : d.length ≤ (d ++ e).length := by simp [List.length_append]
    exact_mod_cast h1
  by_cases h0 : i = (d.length : Int)
  · exfalso
    apply hm
    unfold parseOneBulk
    rw [if_pos h0]
  by_cases hneg : i < 0
  · have he0 : ¬ i = ((d ++ e).length : Int) := by omega
    unfold parseOneBulk
    rw [if_neg h0, if_neg he0, if_pos (Or.inl hneg), if_pos (Or.inl hneg)]
  have hilt : i < (d.length : Int) := lt_of_le_of_ne hi h0
  have hitn : (i.toNat : Int) = i := Int.toNat_of_nonneg (by omega)
  have hitn_lt : i.toNat < d.length := by omega
  have he0 : ¬ i = ((d ++ e).length : Int) := by omega
  have hnp : ¬ (i < 0 ∨ (d.length : Int) < i) := by omega
  have hnpe : ¬ (i < 0 ∨ ((d ++ e).length : Int) < i) := by omega
  have hby : byteAt (d ++ e) i.toNat = byteAt d i.toNat := byteAt_append_left hitn_lt
  unfold parseOneBulk
  rw [if_neg h0, if_neg he0, if_neg hnp, if_neg hnpe, hby]
  by_cases h36 : byteAt d i.toNat ≠ 36
  · rw [if_pos h36, if_pos h36]
  rw [if_neg h36, if_neg h36]
  cases hf : findLFFrom d i.toNat with
  | none =>
    exfalso
    apply hm
    unfold parseOneBulk
    rw [if_neg h0, if_neg hnp, if_neg h36, hf]
  | some k =>
    have hfe : findLFFrom (d ++ e) i.toNat = some k := findLFFrom_append hf
    rw [hfe]
    dsimp only
    obtain ⟨hik, hklt⟩ := findLFFrom_lt hf
    have hbk : byteAt (d ++ e) (k - 1) = byteAt d (k - 1) := byteAt_append_left (by omega)
    rw [hbk]
    by_cases h13 : byteAt d (k - 1) ≠ 13
    · rw [if_pos h13, if_pos h13]
    rw [if_neg h13, if_neg h13]
    have hsl : sliceGo (d ++ e) (i.toNat + 1) (k - 1) = sliceGo d (i.toNat + 1) (k - 1) :=
      sliceGo_append (by omega)
    rw [hsl]
    cases hu : parseGoUint (sliceGo d (i.toNat + 1) (k - 1)) with
    | none => rfl
    | some n2 =>
      dsimp only
      have hn2 := parseGoUint_lt hu
      by_cases hmore : (d.length : Int) - ((k + 1 : Nat) : Int) < toInt64 (n2 + 2)
      · exfalso
        apply hm
        unfold parseOneBulk
        rw [if_neg h0, if_neg hnp, if_neg h36, hf]
        dsimp only
        rw [if_neg h13, hu]
        dsimp only
        rw [if_pos hmore]
      · have hmoree : ¬ (((d ++ e).length : Int) - ((k + 1 : Nat) : Int) < toInt64 (n2 + 2)) := by
          omega
        rw [if_neg hmore, if_neg hmoree]
        by_cases hpan : toInt64 n2 < 0 ∨ (d.length : Int) < ((k + 1 : Nat) : Int) + toInt64 n2
        · have hpane : toInt64 n2 < 0 ∨
              ((d ++ e).length : Int) < ((k + 1 : Nat) : Int) + toInt64 n2 := by
            rcases hpan with h | h
            · exact Or.inl h
            · by_cases hneg2 : toInt64 n2 < 0
              · exact Or.inl hneg2
              · right
                have hlt63 : n2 < 2 ^ 63 := (toInt64_nonneg_iff hn2).mp (by omega)
                have heq2 : toInt64 n2 = (n2 : Int) := toInt64_of_lt hlt63
                by_cases hsm : n2 + 2 < 2 ^ 63
                · exfalso
                  have heq3 : toInt64 (n2 + 2) = ((n2 + 2 : Nat) : Int) := toInt64_of_lt hsm
                  rw [heq3] at hmore
                  rw [heq2] at h
                  push_cast at hmore h
                  omega
                · rw [heq2] at h ⊢
                  push_cast at h ⊢
                  omega
          rw [if_pos hpan, if_pos hpane]
        · have hpane : ¬ (toInt64 n2 < 0 ∨
              ((d ++ e).length : Int) < ((k + 1 : Nat) : Int) + toInt64 n2) := by
            push_neg at hpan ⊢
            exact ⟨hpan.1, le_trans hpan.2 hlen⟩
          rw [if_neg hpan, if_neg hpane]
          have harg : sliceGo (d ++ e) (k + 1) ((((k + 1 : Nat) : Int)) + toInt64 n2).toNat
              = sliceGo d (k + 1) ((((k + 1 : Nat) : Int)) + toInt64 n2).toNat := by
            apply sliceGo_append
            push_neg at hpan
            exact Int.toNat_le.mpr hpan.2
          rw [harg]

theorem parseBulks_stable {d e : List Nat} (hB : (d ++ e).length ≤ 2 ^ 63 - 2) :
    ∀ (count : Nat) (i : Int) (args : List (List Nat)), i ≤ (d.length : Int) →
      parseBulks d count i args ≠ .more →
      parseBulks (d ++ e) count i args = parseBulks d count i args := by
  intro count
  induction count with
  | zero =>
    intro i args hi hm
    exact absurd rfl hm
  | succ c ih =>
    intro i args hi hm
    cases hob : parseOneBulk d i with
    | bMore =>
      exfalso
      apply hm
      simp only [parseBulks, hob]
    | bPerr err =>
      have hobe := parseOneBulk_stable hB hi (by rw [hob]; simp)
      rw [hob] at hobe
      simp only [parseBulks, hob, hobe]
    | bPanic =>
      have hobe := parseOneBulk_stable hB hi (by rw [hob]; simp)
      rw [hob] at hobe
      simp only [parseBulks, hob, hobe]
    | bOk arg i2 =>
      have hobe := parseOneBulk_stable hB hi (by rw [hob]; simp)
      rw [hob] at hobe
      have hle2 := parseOneBulk_bOk_le hob
      simp only [parseBulks, hob, hobe]
      by_cases hc : c = 0
      · rw [if_pos hc, if_pos hc]
        by_cases hi2 : i2 < 0
        · rw [if_pos hi2, if_pos hi2]
        · rw [if_neg hi2, if_neg hi2, take_append_of_le (Int.toNat_le.mpr hle2)]
      · rw [if_neg hc, if_neg hc]
        apply ih i2 _ hle2
        intro hmm
        apply hm
        simp only [parseBulks, hob, if_neg hc]
        exact hmm

theorem telnet_stable {d e : List Nat} (hm : readBufferedTelnetCommand d ≠ .more) :
    readBufferedTelnetCommand (d ++ e) = readBufferedTelnetCommand d := by
  unfold readBufferedTelnetCommand
  cases hf : findLFFrom d 1 with
  | none =>
    exfalso
    apply hm
    unfold readBufferedTelnetCommand
    rw [hf]
  | some i =>
    have hfe := findLFFrom_append (e := e) hf
    obtain ⟨h1i, hilt⟩ := findLFFrom_lt hf
    rw [hfe]
    dsimp only
    have hbl : telnetLine (d ++ e) i = telnetLine d i := by
      unfold telnetLine
      rw [byteAt_append_left (show i - 1 < d.length by omega)]
      by_cases h13 : byteAt d (i - 1) = 13
      · rw [if_pos h13, if_pos h13, take_append_of_le (by omega)]
      · rw [if_neg h13, if_neg h13, take_append_of_le (by omega)]
    rw [hbl, take_append_of_le (show i + 1 ≤ d.length by omega)]

theorem multibulk_stable {d e : List Nat} (hB : (d ++ e).length ≤ 2 ^ 63 - 2)
    (hm : readBufferedMultibulk d ≠ .more) :
    readBufferedMultibulk (d ++ e) = readBufferedMultibulk d := by
  unfold readBufferedMultibulk
  cases hf : findLFFrom d 1 with
  | none =>
    exfalso
    apply hm
    unfold readBufferedMultibulk
    rw [hf]
  | some i =>
    have hfe := findLFFrom_append (e := e) hf
    obtain ⟨h1i, hilt⟩ := findLFFrom_lt hf
    rw [hfe]
    dsimp only
    rw [byteAt_append_left (show i - 1 < d.length by omega)]
    by_cases h13 : byteAt d (i - 1) ≠ 13
    · rw [if_pos h13, if_pos h13]
    · rw [if_neg h13, if_neg h13]
      rw [sliceGo_append (show i - 1 ≤ d.length by omega)]
      cases hn : parseGoInt (sliceGo d 1 (i - 1)) with
      | none => rfl
      | some n =>
        dsimp only
        by_cases hn0 : n ≤ 0
        · rw [if_pos hn0, if_pos hn0, take_append_of_le (show i + 1 ≤ d.length by omega)]
        · rw [if_neg hn0, if_neg hn0]
          apply parseBulks_stable hB
          · omega
          · intro hmm
            apply hm
            unfold readBufferedMultibulk
            rw [hf]
            dsimp only
            rw [if_neg h13, hn]
            dsimp only
            rw [if_neg hn0]
            exact hmm

theorem parse_stable {d e : List Nat} (hB : (d ++ e).length ≤ 2 ^ 63 - 2)
    (hm : readBufferedCommand d ≠ .more) :
    readBufferedCommand (d ++ e) = readBufferedCommand d := by
  have hd : d ≠ [] := by
    intro hnil
    subst hnil
    exact hm readBufferedCommand_nil
  have hlen0 : 0 < d.length := List.length_pos.mpr hd
  unfold readBufferedCommand at hm ⊢
  rw [byteAt_append_left hlen0]
  by_cases h42 : byteAt d 0 = 42
  · rw [if_pos h42, if_pos h42]
    rw [if_pos h42] at hm
    exact multibulk_stable hB hm
  · rw [if_neg h42, if_neg h42]
    rw [if_neg h42] at hm
    exact telnet_stable hm

theorem readAux_sync : ∀ (fuel : Nat) (buf : List Nat) (copied : Bool) (chunks : List (List Nat)),
    chunks.length ≤ fuel → (buf ++ chunks.join).length ≤ 2 ^ 63 - 2 →
    (∀ raw args t, readBufferedCommand (buf ++ chunks.join) = .ok raw args t →
      ∃ flush rs2, readCommandGoAux fuel buf copied chunks = (.cmd raw args flush, rs2)
        ∧ rs2.buf ++ rs2.chunks.join = (buf ++ chunks.join).drop raw.length)
    ∧ (∀ err, readBufferedCommand (buf ++ chunks.join) = .perr err →
      (readCommandGoAux fuel buf copied chunks).1 = .perrR err)
    ∧ (readBufferedCommand (buf ++ chunks.join) = .more →
      (readCommandGoAux fuel buf copied chunks).1 = .eofR)
    ∧ (readBufferedCommand (buf ++ chunks.join) = .panicked →
      (readCommandGoAux fuel buf copied chunks).1 = .panickedR) := by
  intro fuel
  induction fuel with
  | zero =>
    intro buf copied chunks hlen hB
    have hchn : chunks = [] := List.length_eq_zero.mp (Nat.le_zero.mp hlen)
    subst hchn
    simp only [List.join_nil, List.append_nil] at *
    refine ⟨?_, ?_, ?_, ?_⟩
    · intro raw args t hp
      rw [readCommandGoAux_zero, scrutinee_eq, hp]
      dsimp only
      by_cases hd : raw.length = buf.length
      · rw [if_pos hd]
        exact ⟨true, ⟨[], copied, []⟩, rfl, by simp [hd]⟩
      · rw [if_neg hd]
        exact ⟨copied, ⟨buf.drop raw.length, copied, []⟩, rfl, by simp⟩
    · intro err hp
      rw [readCommandGoAux_zero, scrutinee_eq, hp]
    · intro hp
      rw [readCommandGoAux_zero, scrutinee_eq, hp]
    · intro hp
      rw [readCommandGoAux_zero, scrutinee_eq, hp]
  | succ f ih =>
    intro buf copied chunks hlen hB
    cases chunks with
    | nil =>
      simp only [List.join_nil, List.append_nil] at *
      refine ⟨?_, ?_, ?_, ?_⟩
      · intro raw args t hp
        rw [readCommandGoAux_succ, scrutinee_eq, hp]
        dsimp only
        by_cases hd : raw.length = buf.length
        · rw [if_pos hd]
          exact ⟨true, ⟨[], copied, []⟩, rfl, by simp [hd]⟩
        · rw [if_neg hd]
          exact ⟨copied, ⟨buf.drop raw.length, copied, []⟩, rfl, by simp⟩
      · intro err hp
        rw [readCommandGoAux_succ, scrutinee_eq, hp]
      · intro hp
        rw [readCommandGoAux_succ, scrutinee_eq, hp]
      · intro hp
        rw [readCommandGoAux_succ, scrutinee_eq, hp]
    | cons ch rest =>
      by_cases hpm : readBufferedCommand buf = .more
      · have hstep : readCommandGoAux (f + 1) buf copied (ch :: rest) =
            (if buf.length = 0 then readCommandGoAux f ch false rest
             else readCommandGoAux f (buf ++ ch) true rest) := by
          rw [readCommandGoAux_succ, scrutinee_eq, hpm]
        have hrest : rest.length ≤ f := by
          simp only [List.length_cons] at hlen
          omega
        by_cases hbe : buf.length = 0
        · have hbnil : buf = [] := List.length_eq_zero.mp hbe
          subst hbnil
          rw [if_pos hbe] at hstep
          have heq : ([] : List Nat) ++ (ch :: rest).join = ch ++ rest.join := by
            simp [List.join_cons]
          rw [heq] at hB ⊢
          rw [hstep]
          exact ih ch false rest hrest hB
        · rw [if_neg hbe] at hstep
          have heq : buf ++ (ch :: rest).join = (buf ++ ch) ++ rest.join := by
            simp [List.join_cons, List.append_assoc]
          rw [heq] at hB ⊢
          rw [hstep]
          exact ih (buf ++ ch) true rest hrest hB
      · have hst : readBufferedCommand (buf ++ (ch :: rest).join) = readBufferedCommand buf :=
          parse_stable hB hpm
        refine ⟨?_, ?_, ?_, ?_⟩
        · intro raw args t hp
          rw [hst] at hp
          rw [readCommandGoAux_succ, scrutinee_eq, hp]
          dsimp only
          by_cases hd : raw.length = buf.length
          · rw [if_pos hd]
            refine ⟨true, ⟨[], copied, ch :: rest⟩, rfl, ?_⟩
            rw [hd, List.nil_append, List.drop_left]
          · rw [if_neg hd]
            refine ⟨copied, ⟨buf.drop raw.length, copied, ch :: rest⟩, rfl, ?_⟩
            rw [drop_append_of_le (parse_ok_len_le hp)]
        · intro err hp
          rw [hst] at hp
          rw [readCommandGoAux_succ, scrutinee_eq, hp]
        · intro hp
          rw [hst] at hp
          exact absurd hp hpm
        · intro hp
          rw [hst] at hp
          rw [readCommandGoAux_succ, scrutinee_eq, hp]

theorem collect_eq_ref : ∀ (fuel : Nat) (buf : List Nat) (copied : Bool)
    (chunks : List (List Nat)), (buf ++ chunks.join).length ≤ 2 ^ 63 - 2 →
    collectTail fuel buf copied chunks = refCollect fuel (buf ++ chunks.join) := by
  intro fuel
  induction fuel with
  | zero => intros; rfl
  | succ f ih =>
    intro buf copied chunks hB
    have hsync := readAux_sync chunks.length buf copied chunks le_rfl hB
    cases hp : readBufferedCommand (buf ++ chunks.join) with
    | ok raw args t =>
      obtain ⟨flush, rs2, hr, hjoin⟩ := hsync.1 raw args t hp
      have hlen2 : (rs2.buf ++ rs2.chunks.join).length ≤ 2 ^ 63 - 2 := by
        rw [hjoin, List.length_drop]
        omega
      simp only [collectTail, readCommandGo, hr]
      rw [ih rs2.buf rs2.copied rs2.chunks hlen2, hjoin]
      simp only [refCollect, hp]
    | more =>
      rcases hrw : readCommandGoAux chunks.length buf copied chunks with ⟨out1, rs1⟩
      have hout : out1 = .eofR := by
        have h1 := hsync.2.2.1 hp
        rw [hrw] at h1
        exact h1
      subst hout
      simp only [collectTail, readCommandGo, hrw, refCollect, hp]
    | perr err =>
      rcases hrw : readCommandGoAux chunks.length buf copied chunks with ⟨out1, rs1⟩
      have hout : out1 = .perrR err := by
        have h1 := hsync.2.1 err hp
        rw [hrw] at h1
        exact h1
      subst hout
      simp only [collectTail, readCommandGo, hrw, refCollect, hp]
    | panicked =>
      rcases hrw : readCommandGoAux chunks.length buf copied chunks with ⟨out1, rs1⟩
      have hout : out1 = .panickedR := by
        have h1 := hsync.2.2.2 hp
        rw [hrw] at h1
        exact h1
      subst hout
      simp only [collectTail, readCommandGo, hrw, refCollect, hp]

/-- C2: for every byte sequence (of realizable length, below `2^63 - 2`
bytes — the bound under which the parser's 64-bit index arithmetic is
monotone) and every way of splitting it into successive partial deliveries
to `ReadCommand`, the ordered sequence of decoded argument lists produced
equals the sequence produced when the whole byte sequence is delivered in
one piece. -/
theorem c2_split_invariance (chunks : List (List Nat)) (fuel : Nat)
    (h : (chunks.join).length ≤ 2 ^ 63 - 2) :
    collectTail fuel [] false chunks = collectTail fuel [] false [chunks.join] := by
  rw [collect_eq_ref fuel [] false chunks (by simpa using h),
      collect_eq_ref fuel [] false [chunks.join] (by simpa using h)]
  congr 1
  simp

/-- C2 witness: delivering `*1\r\n$1\r\nx\r\n` split after the header
equals delivering it whole. -/
theorem c2_split_invariance_witness :
    (([[42, 49, 13, 10], [36, 49, 13, 10, 120, 13, 10]] : List (List Nat)).join.length
        ≤ 2 ^ 63 - 2)
    ∧ collectTail 3 [] false [[42, 49, 13, 10], [36, 49, 13, 10, 120, 13, 10]]
      = collectTail 3 [] false
          [([[42, 49, 13, 10], [36, 49, 13, 10, 120, 13, 10]] : List (List Nat)).join] :=
  ⟨by decide,
   c2_split_invariance [[42, 49, 13, 10], [36, 49, 13, 10, 120, 13, 10]] 3 (by decide)⟩
